import Mathlib

/-!
Verification of the crusp-variables domain core: the change-classification
algebra (`IntVariableState`, its bit-level merge and its subsumption order)
and the sorted value-set domain representation (`IntVarValues`) with its
mutating operations, shallowly embedded from the Rust source.
-/

namespace Crusp

/-- Change classification of a domain update (source enum `IntVariableState`,
`src/int_var.rs`). -/
inductive IntVariableState where
  | MaxBoundChange
  | MinBoundChange
  | BoundsChange
  | ValuesChange
  | NoChange
  | UniversalChange
  | UniversalError
deriving DecidableEq, Repr, Fintype

/-- The `repr(u8)` discriminant of each `IntVariableState` value, as declared
in the source (`MaxBoundChange = 0b0000_0011`, etc.). -/
def toU8 : IntVariableState → Nat
  | .MaxBoundChange => 3
  | .MinBoundChange => 5
  | .BoundsChange => 7
  | .ValuesChange => 15
  | .NoChange => 0
  | .UniversalChange => 224
  | .UniversalError => 225

/-- Partial inverse of `toU8`: recover the enum value from a `u8` bit
pattern, `none` when the pattern is not a valid discriminant. -/
def fromU8 (n : Nat) : Option IntVariableState :=
  if n = 3 then some .MaxBoundChange
  else if n = 5 then some .MinBoundChange
  else if n = 7 then some .BoundsChange
  else if n = 15 then some .ValuesChange
  else if n = 0 then some .NoChange
  else if n = 224 then some .UniversalChange
  else if n = 225 then some .UniversalError
  else none

/-- The u8 computation inside `impl std::ops::BitOr for IntVariableState`:
`univ_bit = (lhs | rhs) & UniversalChange`, `value_bit = (lhs | rhs) &
ValuesChange`, `value_mask = (!univ_bit) >> 4`, result
`univ_bit | (value_bit & value_mask)`.  Rust's `!` on `u8` is complement
within 8 bits, i.e. xor with 255. -/
def bitorRepr (lhs rhs : Nat) : Nat :=
  let univ_bit := Nat.land (Nat.lor lhs rhs) (toU8 .UniversalChange)
  let value_bit := Nat.land (Nat.lor lhs rhs) (toU8 .ValuesChange)
  let value_mask := Nat.shiftRight (Nat.xor univ_bit 255) 4
  Nat.lor univ_bit (Nat.land value_bit value_mask)

/-- The merge operation (`a | b`) on classifications: compute the bit
pattern and reinterpret it as an enum value (the source transmutes; the
default arm is never reached, see the closure theorem for claim C10). -/
def bitor (a b : IntVariableState) : IntVariableState :=
  (fromU8 (bitorRepr (toU8 a) (toU8 b))).getD .UniversalError

/-- Source method `IntVariableState::is_subsumed_under` (its `Subsumed`
impl), translated arm by arm. -/
def is_subsumed_under (s val : IntVariableState) : Bool :=
  match s with
  | .MaxBoundChange => val = .MaxBoundChange
  | .MinBoundChange => val = .MinBoundChange
  | .BoundsChange => val ≠ .ValuesChange ∧ val ≠ .NoChange
  | .ValuesChange => val ≠ .NoChange
  | .NoChange => true
  | _ => false

/-- Domain wipeout error (source enum `VariableError`, `src/lib.rs`). -/
inductive VariableError where
  | DomainWipeout
deriving DecidableEq, Repr

/-- Sorted value-set domain representation (source struct `IntVarValues`,
`src/int_var/values.rs`), instantiated at integer values. -/
structure IntVarValues where
  domain : List Int
deriving DecidableEq, Repr

/-- Result of a mutating domain operation: the returned
`Result<IntVariableState, VariableError>`. -/
abbrev VRes := Except VariableError IntVariableState

deriving instance DecidableEq for Except

namespace IntVarValues

/-- Source `FiniteDomain::size`: length of the stored sequence. -/
def size (v : IntVarValues) : Nat := v.domain.length

/-- Source `OrderedDomain::min`: first stored element. -/
def min (v : IntVarValues) : Option Int := v.domain.head?

/-- Source `OrderedDomain::max`: last stored element. -/
def max (v : IntVarValues) : Option Int := v.domain.getLast?

/-- Source `unchecked_min` (panics on an empty domain; modelled with an
arbitrary value there, claims only use it on non-empty domains). -/
def umin (v : IntVarValues) : Int := (v.min).getD 0

/-- Source `unchecked_max` (same remark as `umin`). -/
def umax (v : IntVarValues) : Int := (v.max).getD 0

/-- Source `Variable::value`: the single value when `min() == max?`, else
nothing. -/
def value (v : IntVarValues) : Option Int :=
  if v.min = v.max then v.min else none

/-- Source `is_affected`: the domain is a singleton. -/
def is_affected (v : IntVarValues) : Bool := v.domain.length = 1

/-- Source `invalidate`: clear the stored sequence. -/
def invalidate (_v : IntVarValues) : IntVarValues := ⟨[]⟩

/-- Source `FromRangeDomain::new_from_range`: push `min, min+1, ...` while
below `max + 1`; nothing when `min > max`. -/
def new_from_range (mn mx : Int) : Option IntVarValues :=
  if mn > mx then none
  else some ⟨(List.range (mx + 1 - mn).toNat).map (fun i : Nat => mn + (i : Int))⟩

/-- Adjacent-duplicate removal, the semantics of Rust `Vec::dedup`. -/
def dedupAdj : List Int → List Int
  | [] => []
  | [a] => [a]
  | a :: b :: l => if a = b then dedupAdj (b :: l) else a :: dedupAdj (b :: l)

/-- Source `FromValuesDomain::new_from_values`: collect, sort, dedup;
nothing when the result is empty (`Vec::sort` is modelled by insertion
sort, which computes the same ascending reordering). -/
def new_from_values (values : List Int) : Option IntVarValues :=
  let d := dedupAdj (List.insertionSort (· ≤ ·) values)
  if d.isEmpty then none else some ⟨d⟩

/-- Source `AssignableDomain::set_value`.  The initial range check returns
the error with the domain untouched (the `invalidate` there is commented
out in the source); the binary search on the sorted store is modelled by
list membership; a miss clears the domain. -/
def set_value (v : IntVarValues) (val : Int) : VRes × IntVarValues :=
  if v.umin > val ∨ v.umax < val then (.error .DomainWipeout, v)
  else if v.value = some val then (.ok .NoChange, v)
  else if val ∈ v.domain then (.ok .BoundsChange, ⟨[val]⟩)
  else (.error .DomainWipeout, ⟨[]⟩)

/-- Source private helper `domain_change`: classify against the saved
pre-operation min, max and size. -/
def domain_change (v : IntVarValues) (prev_min prev_max : Int)
    (prev_size : Nat) : VRes × IntVarValues :=
  if v.domain.isEmpty then (.error .DomainWipeout, v.invalidate)
  else if v.size = prev_size then (.ok .NoChange, v)
  else if v.umin ≠ prev_min ∨ v.umax ≠ prev_max then (.ok .BoundsChange, v)
  else (.ok .ValuesChange, v)

/-- Index of the last element satisfying `p`, the semantics of Rust
`Iterator::rposition` over a vector. -/
def rposition (p : Int → Bool) : List Int → Option Nat
  | [] => none
  | a :: l =>
    match rposition p l with
    | some i => some (i + 1)
    | none => if p a then some 0 else none

/-- Source `OrderedDomain::strict_upperbound`: keep the values up to the
last one below `ub` (the `none` arm mirrors the source's `unwrap`, which
cannot be reached when the guards hold on a sorted non-empty domain). -/
def strict_upperbound (v : IntVarValues) (ub : Int) : VRes × IntVarValues :=
  if v.umax < ub then (.ok .NoChange, v)
  else if v.umin ≥ ub then (.error .DomainWipeout, v)
  else
    match rposition (fun x => x < ub) v.domain with
    | some index => (.ok .BoundsChange, ⟨v.domain.take (index + 1)⟩)
    | none => (.ok .BoundsChange, v)

/-- Source `OrderedDomain::weak_upperbound`. -/
def weak_upperbound (v : IntVarValues) (ub : Int) : VRes × IntVarValues :=
  if v.umax ≤ ub then (.ok .NoChange, v)
  else if v.umin > ub then (.error .DomainWipeout, v)
  else
    match rposition (fun x => x ≤ ub) v.domain with
    | some index => (.ok .BoundsChange, ⟨v.domain.take (index + 1)⟩)
    | none => (.ok .BoundsChange, v)

/-- Source `OrderedDomain::strict_lowerbound`: drain the values before the
first one above `lb`. -/
def strict_lowerbound (v : IntVarValues) (lb : Int) : VRes × IntVarValues :=
  if v.umin > lb then (.ok .NoChange, v)
  else if v.umax ≤ lb then (.error .DomainWipeout, v)
  else
    match v.domain.findIdx? (fun x => x > lb) with
    | some index => (.ok .BoundsChange, ⟨v.domain.drop index⟩)
    | none => (.ok .BoundsChange, v)

/-- Source `OrderedDomain::weak_lowerbound`. -/
def weak_lowerbound (v : IntVarValues) (lb : Int) : VRes × IntVarValues :=
  if v.umin ≥ lb then (.ok .NoChange, v)
  else if v.umax < lb then (.error .DomainWipeout, v)
  else
    match v.domain.findIdx? (fun x => x ≥ lb) with
    | some index => (.ok .BoundsChange, ⟨v.domain.drop index⟩)
    | none => (.ok .BoundsChange, v)

/-- Ascending duplicate-free intersection, the semantics of collecting the
two sequences into `BTreeSet`s and intersecting them: the sorted unique
form of the first list, filtered by membership in the second. -/
def interList (l1 l2 : List Int) : List Int :=
  (dedupAdj (List.insertionSort (· ≤ ·) l1)).filter (fun x => l2.contains x)

/-- The `check_change` closure inside `EqualDomain::equal` and
`in_sorted_values`: classify one side against the intersection. -/
def equalCheck (v : IntVarValues) (domain : List Int) : IntVariableState :=
  if v.size = domain.length then .NoChange
  else if v.umin ≠ (domain.head?).getD 0 ∨ v.umax ≠ (domain.getLast?).getD 0 then
    .BoundsChange
  else .ValuesChange

/-- Source `EqualDomain::equal`: destructively intersect both domains;
empty intersection invalidates both sides and fails. -/
def equal (v1 v2 : IntVarValues) :
    Except VariableError (IntVariableState × IntVariableState)
      × IntVarValues × IntVarValues :=
  let domain := interList v1.domain v2.domain
  if domain.isEmpty then (.error .DomainWipeout, ⟨[]⟩, ⟨[]⟩)
  else (.ok (equalCheck v1 domain, equalCheck v2 domain), ⟨domain⟩, ⟨domain⟩)

/-- Source `PrunableDomain::remove_value`.  The first guard is the
source's fast reject written with `&&` exactly as in the code; the binary
search plus `Vec::remove` is modelled by `List.erase` on the sorted
store. -/
def remove_value (v : IntVarValues) (val : Int) : VRes × IntVarValues :=
  if v.umin > val ∧ v.umax < val then (.ok .NoChange, v)
  else if val ∈ v.domain then
    let d : IntVarValues := ⟨v.domain.erase val⟩
    if d.size = 0 then (.error .DomainWipeout, d)
    else if d.min ≠ v.min ∨ d.max ≠ v.max then (.ok .BoundsChange, d)
    else (.ok .ValuesChange, d)
  else (.ok .NoChange, v)

/-- Source `EqualDomain::not_equal`: when either side is a singleton,
remove that value from the other side; otherwise do nothing. -/
def not_equal (v1 v2 : IntVarValues) :
    Except VariableError (IntVariableState × IntVariableState)
      × IntVarValues × IntVarValues :=
  match v1.value with
  | some val =>
    match remove_value v2 val with
    | (.ok s, v2') => (.ok (.NoChange, s), v1, v2')
    | (.error e, v2') => (.error e, v1, v2')
  | none =>
    match v2.value with
    | some val =>
      match remove_value v1 val with
      | (.ok s, v1') => (.ok (s, .NoChange), v1', v2)
      | (.error e, v1') => (.error e, v1', v2)
    | none => (.ok (.NoChange, .NoChange), v1, v2)

/-- Source `PrunableDomain::remove_if`: retain the elements failing the
predicate, then classify via `domain_change`. -/
def remove_if (v : IntVarValues) (p : Int → Bool) : VRes × IntVarValues :=
  domain_change ⟨v.domain.filter (fun x => !(p x))⟩ v.umin v.umax v.size

/-- Source `PrunableDomain::retains_if`: retain the elements satisfying
the predicate, then classify via `domain_change`. -/
def retains_if (v : IntVarValues) (p : Int → Bool) : VRes × IntVarValues :=
  domain_change ⟨v.domain.filter p⟩ v.umin v.umax v.size

/-- Source `OrderedPrunableDomain::in_sorted_values`: intersect with the
supplied collection (a `BTreeSet` on the source side). -/
def in_sorted_values (v : IntVarValues) (values : List Int) :
    VRes × IntVarValues :=
  let domain := interList v.domain values
  if domain.isEmpty then (.error .DomainWipeout, ⟨[]⟩)
  else (.ok (equalCheck v domain), ⟨domain⟩)

/-- Source `PrunableDomain::in_values`: sort the collection first, then
defer to `in_sorted_values`. -/
def in_values (v : IntVarValues) (values : List Int) : VRes × IntVarValues :=
  in_sorted_values v (List.insertionSort (· ≤ ·) values)

/-- The stored sequence is strictly ascending. -/
abbrev SortedDom (v : IntVarValues) : Prop := v.domain.Sorted (· < ·)

/-- The documented representation invariant: strictly ascending and
duplicate-free store, `size` equal to its length, `min`/`max` equal to its
endpoints when non-empty. -/
def DomInvariant (v : IntVarValues) : Prop :=
  v.domain.Sorted (· < ·) ∧ v.domain.Nodup ∧ v.size = v.domain.length ∧
    ∀ h : v.domain ≠ [],
      v.min = some (v.domain.head h) ∧ v.max = some (v.domain.getLast h)

/-- Domain states reachable from a from-range or from-values construction
by any sequence of the mutating operations (including the states left
behind by failing operations). -/
inductive Reachable : IntVarValues → Prop where
  | from_range (mn mx : Int) (v : IntVarValues) :
      new_from_range mn mx = some v → Reachable v
  | from_values (vs : List Int) (v : IntVarValues) :
      new_from_values vs = some v → Reachable v
  | step_set_value (v : IntVarValues) (x : Int) :
      Reachable v → Reachable (set_value v x).2
  | step_strict_ub (v : IntVarValues) (b : Int) :
      Reachable v → Reachable (strict_upperbound v b).2
  | step_weak_ub (v : IntVarValues) (b : Int) :
      Reachable v → Reachable (weak_upperbound v b).2
  | step_strict_lb (v : IntVarValues) (b : Int) :
      Reachable v → Reachable (strict_lowerbound v b).2
  | step_weak_lb (v : IntVarValues) (b : Int) :
      Reachable v → Reachable (weak_lowerbound v b).2
  | step_equal_left (v w : IntVarValues) :
      Reachable v → Reachable w → Reachable (equal v w).2.1
  | step_equal_right (v w : IntVarValues) :
      Reachable v → Reachable w → Reachable (equal v w).2.2
  | step_not_equal_left (v w : IntVarValues) :
      Reachable v → Reachable w → Reachable (not_equal v w).2.1
  | step_not_equal_right (v w : IntVarValues) :
      Reachable v → Reachable w → Reachable (not_equal v w).2.2
  | step_in_values (v : IntVarValues) (vs : List Int) :
      Reachable v → Reachable (in_values v vs).2
  | step_in_sorted (v : IntVarValues) (vs : List Int) :
      Reachable v → Reachable (in_sorted_values v vs).2
  | step_remove_value (v : IntVarValues) (x : Int) :
      Reachable v → Reachable (remove_value v x).2
  | step_remove_if (v : IntVarValues) (p : Int → Bool) :
      Reachable v → Reachable (remove_if v p).2
  | step_retains_if (v : IntVarValues) (p : Int → Bool) :
      Reachable v → Reachable (retains_if v p).2

end IntVarValues

namespace IntVarValues

/-- Membership is unchanged by adjacent-duplicate removal. -/
theorem dedupAdj_mem : ∀ (l : List Int) (x : Int), x ∈ dedupAdj l ↔ x ∈ l
  | [], _ => Iff.rfl
  | [_], _ => Iff.rfl
  | a :: b :: l, x => by
    by_cases hab : a = b
    · subst hab
      rw [show dedupAdj (a :: a :: l) = dedupAdj (a :: l) by simp [dedupAdj]]
      rw [dedupAdj_mem (a :: l) x]
      simp only [List.mem_cons]
      tauto
    · simp only [dedupAdj, if_neg hab, List.mem_cons, dedupAdj_mem (b :: l) x]

/-- Adjacent-duplicate removal of a weakly sorted list is strictly
sorted. -/
theorem dedupAdj_sorted :
    ∀ l : List Int, l.Sorted (· ≤ ·) → (dedupAdj l).Sorted (· < ·)
  | [], _ => List.sorted_nil
  | [a], _ => List.sorted_singleton a
  | a :: b :: l, h => by
    have hab : a ≤ b := List.rel_of_sorted_cons h b (List.mem_cons_self b l)
    have ht : (b :: l).Sorted (· ≤ ·) := h.of_cons
    by_cases he : a = b
    · simpa [dedupAdj, he] using dedupAdj_sorted (b :: l) ht
    · have ih := dedupAdj_sorted (b :: l) ht
      simp only [dedupAdj, if_neg he]
      refine List.pairwise_cons.mpr ⟨?_, ih⟩
      intro x hx
      have hxbl : x ∈ b :: l := (dedupAdj_mem (b :: l) x).mp hx
      have hbx : b ≤ x := by
        rcases List.mem_cons.mp hxbl with rfl | h2
        · exact le_refl x
        · exact List.rel_of_sorted_cons ht x h2
      exact lt_of_lt_of_le (lt_of_le_of_ne hab he) hbx

/-- Adjacent-duplicate removal gives the empty list only on the empty
list. -/
theorem dedupAdj_eq_nil_iff (l : List Int) : dedupAdj l = [] ↔ l = [] := by
  rw [List.eq_nil_iff_forall_not_mem, List.eq_nil_iff_forall_not_mem]
  exact forall_congr' fun x => not_congr (dedupAdj_mem l x)

/-- The modelled set intersection is strictly sorted. -/
theorem interList_sorted (l1 l2 : List Int) :
    (interList l1 l2).Sorted (· < ·) :=
  (dedupAdj_sorted _ (List.sorted_insertionSort _ l1)).filter _

/-- Membership in the modelled set intersection. -/
theorem interList_mem (l1 l2 : List Int) (x : Int) :
    x ∈ interList l1 l2 ↔ x ∈ l1 ∧ x ∈ l2 := by
  simp [interList, List.mem_filter, dedupAdj_mem,
    (List.perm_insertionSort _ l1).mem_iff, List.elem_iff]

/-- The modelled set intersection is empty exactly when the two lists have
no common element. -/
theorem interList_eq_nil_iff (l1 l2 : List Int) :
    interList l1 l2 = [] ↔ ∀ x : Int, ¬(x ∈ l1 ∧ x ∈ l2) := by
  rw [List.eq_nil_iff_forall_not_mem]
  exact forall_congr' fun x => not_congr (interList_mem l1 l2 x)

/-- The defaulted head of a non-empty list is a member. -/
theorem head_getD_mem {l : List Int} (h : l ≠ []) : (l.head?).getD 0 ∈ l := by
  cases l with
  | nil => exact absurd rfl h
  | cons a t => simp

/-- The defaulted last element of a non-empty list is a member. -/
theorem getLast_getD_mem {l : List Int} (h : l ≠ []) :
    (l.getLast?).getD 0 ∈ l := by
  simp [List.getLast?_eq_getLast l h, List.getLast_mem h]

/-- In a strictly sorted list every member is at least the head. -/
theorem head_getD_le_of_mem {l : List Int} (hs : l.Sorted (· < ·)) {x : Int}
    (hx : x ∈ l) : (l.head?).getD 0 ≤ x := by
  cases l with
  | nil => cases hx
  | cons a t =>
    rcases List.mem_cons.mp hx with rfl | h
    · simp
    · simpa using (List.rel_of_sorted_cons hs x h).le

/-- In a strictly sorted list every member is at most the last element. -/
theorem le_getLast_getD_of_mem :
    ∀ {l : List Int}, l.Sorted (· < ·) → ∀ {x : Int}, x ∈ l →
      x ≤ (l.getLast?).getD 0
  | [], _, x, hx => by cases hx
  | a :: t, hs, x, hx => by
    cases t with
    | nil =>
      rcases List.mem_cons.mp hx with rfl | h
      · simp
      · cases h
    | cons b t' =>
      have hlast : (a :: b :: t').getLast? = (b :: t').getLast? := rfl
      have hne : (b :: t') ≠ ([] : List Int) := by simp
      rcases List.mem_cons.mp hx with rfl | h
      · have hmem : ((b :: t').getLast?).getD 0 ∈ b :: t' := getLast_getD_mem hne
        have := List.rel_of_sorted_cons hs _ hmem
        rw [hlast]
        exact this.le
      · rw [hlast]
        exact le_getLast_getD_of_mem hs.of_cons h

/-- On a weakly sorted list, a downward-closed predicate's `takeWhile`
agrees with `filter`. -/
theorem takeWhile_eq_filter {p : Int → Bool}
    (hp : ∀ x y : Int, x ≤ y → p y = true → p x = true) :
    ∀ {l : List Int}, l.Sorted (· ≤ ·) → l.takeWhile p = l.filter p
  | [], _ => rfl
  | a :: t, h => by
    by_cases ha : p a = true
    · simp [List.takeWhile_cons, List.filter_cons, ha,
        takeWhile_eq_filter hp h.of_cons]
    · have hnone : ∀ x ∈ t, ¬ p x = true := fun x hx hpx =>
        ha (hp a x (List.rel_of_sorted_cons h x hx) hpx)
      simp only [List.takeWhile_cons, List.filter_cons, ha, if_neg,
        Bool.false_eq_true, not_false_eq_true]
      rw [List.filter_eq_nil_iff.mpr hnone]

/-- `rposition` finds nothing when no element satisfies the predicate. -/
theorem rposition_eq_none {p : Int → Bool} :
    ∀ {l : List Int}, (∀ x ∈ l, ¬ p x = true) → rposition p l = none
  | [], _ => rfl
  | a :: t, h => by
    have ht := rposition_eq_none fun x hx => h x (List.mem_cons_of_mem a hx)
    simp [rposition, ht, h a (List.mem_cons_self a t)]

/-- On a weakly sorted list, `rposition` of a downward-closed predicate is
the last index of its `takeWhile` block. -/
theorem rposition_sorted {p : Int → Bool}
    (hp : ∀ x y : Int, x ≤ y → p y = true → p x = true) :
    ∀ {l : List Int}, l.Sorted (· ≤ ·) →
      rposition p l =
        if (l.takeWhile p).length = 0 then none
        else some ((l.takeWhile p).length - 1)
  | [], _ => rfl
  | a :: t, h => by
    have ih := rposition_sorted hp h.of_cons
    by_cases ha : p a = true
    · rw [List.takeWhile_cons, if_pos ha]
      by_cases htw : (t.takeWhile p).length = 0
      · have hnone : rposition p t = none := by rw [ih, if_pos htw]
        simp [rposition, hnone, ha, htw]
      · have hsome : rposition p t = some ((t.takeWhile p).length - 1) := by
          rw [ih, if_neg htw]
        simp only [rposition, hsome, List.length_cons]
        rw [if_neg (by omega)]
        congr 1
        omega
    · have hnone : ∀ x ∈ t, ¬ p x = true := fun x hx hpx =>
        ha (hp a x (List.rel_of_sorted_cons h x hx) hpx)
      have ht := rposition_eq_none hnone
      rw [List.takeWhile_cons, if_neg ha]
      simp [rposition, ht, ha]

/-- Taking the length of the `takeWhile` block recovers it. -/
theorem take_length_takeWhile (p : Int → Bool) :
    ∀ l : List Int, l.take (l.takeWhile p).length = l.takeWhile p
  | [] => rfl
  | a :: t => by
    by_cases ha : p a = true
    · simp [List.takeWhile_cons, ha, take_length_takeWhile p t]
    · simp [List.takeWhile_cons, ha]

/-- `findIdx?` in terms of the `takeWhile` block of the negated
predicate. -/
theorem findIdx?_eq_takeWhile (p : Int → Bool) :
    ∀ l : List Int,
      l.findIdx? p =
        if (l.takeWhile (fun x => !(p x))).length = l.length then none
        else some (l.takeWhile (fun x => !(p x))).length
  | [] => rfl
  | a :: t => by
    cases hpa : p a with
    | true => simp [List.findIdx?_cons, hpa, List.takeWhile_cons]
    | false =>
      have ih := findIdx?_eq_takeWhile p t
      by_cases hlen : (t.takeWhile (fun x => !(p x))).length = t.length
      · simp [List.findIdx?_cons, hpa, List.takeWhile_cons,
          List.findIdx?_succ, ih, hlen]
      · simp [List.findIdx?_cons, hpa, List.takeWhile_cons,
          List.findIdx?_succ, ih, hlen]

/-- Dropping the length of a `takeWhile` block yields `dropWhile`. -/
theorem drop_length_takeWhile (q : Int → Bool) :
    ∀ l : List Int, l.drop (l.takeWhile q).length = l.dropWhile q
  | [] => rfl
  | a :: t => by
    by_cases ha : q a = true
    · simp [List.takeWhile_cons, List.dropWhile_cons, ha,
        drop_length_takeWhile q t]
    · simp [List.takeWhile_cons, List.dropWhile_cons, ha]

/-- On a weakly sorted list, dropping the failing prefix of an
upward-closed predicate agrees with `filter`. -/
theorem dropWhile_neg_eq_filter {p : Int → Bool}
    (hp : ∀ x y : Int, x ≤ y → p x = true → p y = true) :
    ∀ {l : List Int}, l.Sorted (· ≤ ·) →
      l.dropWhile (fun x => !(p x)) = l.filter p
  | [], _ => rfl
  | a :: t, h => by
    by_cases ha : p a = true
    · have hall : ∀ x ∈ t, p x = true := fun x hx =>
        hp a x (List.rel_of_sorted_cons h x hx) ha
      simp [List.dropWhile_cons, List.filter_cons, ha,
        List.filter_eq_self.mpr hall]
    · simp only [List.dropWhile_cons, ha, Bool.not_false, if_true,
        List.filter_cons]
      rw [dropWhile_neg_eq_filter hp h.of_cons]
      simp [ha]

/-- On a sorted non-empty domain whose max is not already below `ub` and
whose min is below `ub`, `strict_upperbound` keeps exactly the values
below `ub` and reports `BoundsChange`. -/
theorem strict_upperbound_cut {v : IntVarValues} (hs : SortedDom v)
    (hne : v.domain ≠ []) {ub : Int} (h1 : ¬ v.umax < ub)
    (h2 : ¬ v.umin ≥ ub) :
    strict_upperbound v ub =
      (.ok .BoundsChange, ⟨v.domain.filter (fun x => x < ub)⟩) := by
  have hsle : v.domain.Sorted (· ≤ ·) := hs.le_of_lt
  have hp : ∀ x y : Int, x ≤ y → decide (y < ub) = true →
      decide (x < ub) = true := by
    intro x y hxy hy
    simp only [decide_eq_true_eq] at hy ⊢
    omega
  have hrp := @rposition_sorted (fun x => decide (x < ub)) hp v.domain hsle
  obtain ⟨a, t, hcons⟩ : ∃ a t, v.domain = a :: t := by
    cases hd : v.domain with
    | nil => exact absurd hd hne
    | cons a t => exact ⟨a, t, rfl⟩
  have humin : v.umin = a := by simp [umin, min, hcons]
  have hpa : decide (a < ub) = true := by
    simp only [decide_eq_true_eq]
    omega
  have htw : (v.domain.takeWhile (fun x => decide (x < ub))).length =
      (t.takeWhile (fun x => decide (x < ub))).length + 1 := by
    rw [hcons, List.takeWhile_cons, if_pos hpa]
    rfl
  have hrp2 : rposition (fun x => decide (x < ub)) v.domain =
      some ((v.domain.takeWhile (fun x => decide (x < ub))).length - 1) := by
    rw [hrp, if_neg (by omega)]
  have htake : v.domain.take
      ((v.domain.takeWhile (fun x => decide (x < ub))).length - 1 + 1) =
      v.domain.filter (fun x => decide (x < ub)) := by
    rw [show (v.domain.takeWhile (fun x => decide (x < ub))).length - 1 + 1 =
        (v.domain.takeWhile (fun x => decide (x < ub))).length by omega]
    rw [take_length_takeWhile]
    exact takeWhile_eq_filter hp hsle
  unfold strict_upperbound
  rw [if_neg h1, if_neg h2, hrp2]
  simp only [htake]

/-- On a sorted non-empty domain the min is at most the max. -/
theorem umin_le_umax {v : IntVarValues} (hs : SortedDom v)
    (hne : v.domain ≠ []) : v.umin ≤ v.umax :=
  head_getD_le_of_mem hs (getLast_getD_mem hne)

/-- Every member of a sorted domain is at least the min. -/
theorem umin_le_of_mem {v : IntVarValues} (hs : SortedDom v) {x : Int}
    (hx : x ∈ v.domain) : v.umin ≤ x :=
  head_getD_le_of_mem hs hx

/-- Every member of a sorted domain is at most the max. -/
theorem le_umax_of_mem {v : IntVarValues} (hs : SortedDom v) {x : Int}
    (hx : x ∈ v.domain) : x ≤ v.umax :=
  le_getLast_getD_of_mem hs hx

/-- A value reported by `value` belongs to the domain. -/
theorem mem_of_value_eq_some {v : IntVarValues} {x : Int}
    (h : v.value = some x) : x ∈ v.domain := by
  unfold value at h
  by_cases hc : v.min = v.max
  · rw [if_pos hc] at h
    exact List.mem_of_mem_head? (by rw [show v.domain.head? = v.min from rfl, h]; rfl)
  · rw [if_neg hc] at h
    cases h

/-- On a sorted domain, `value` reports `x` exactly when the store is the
singleton `[x]`. -/
theorem value_eq_some_iff {v : IntVarValues} (hs : SortedDom v) (x : Int) :
    v.value = some x ↔ v.domain = [x] := by
  constructor
  · intro h
    have hx : x ∈ v.domain := mem_of_value_eq_some h
    unfold value at h
    by_cases hc : v.min = v.max
    · rw [if_pos hc] at h
      cases hd : v.domain with
      | nil => rw [hd] at hx; cases hx
      | cons a t =>
        have ha : a = x := by
          have : v.min = v.domain.head? := rfl
          rw [hd] at this
          rw [this] at h
          simpa using h
        subst ha
        cases t with
        | nil => rfl
        | cons b t' =>
          exfalso
          have hsd : (a :: b :: t').Sorted (· < ·) := by
            have := hs
            unfold SortedDom at this
            rwa [hd] at this
          have h1 : v.max = ((b :: t').getLast?) := by
            have : v.max = v.domain.getLast? := rfl
            rw [hd] at this
            exact this
          have h2 : ((b :: t').getLast?).getD 0 = a := by
            rw [← h1, ← hc, h]
            rfl
          have hmem : ((b :: t').getLast?).getD 0 ∈ b :: t' :=
            getLast_getD_mem (by simp)
          rw [h2] at hmem
          exact lt_irrefl a (List.rel_of_sorted_cons hsd a hmem)
    · rw [if_neg hc] at h
      cases h
  · intro h
    unfold value IntVarValues.min IntVarValues.max
    rw [h]
    simp

/-- On a sorted non-empty domain containing `x`, `set_value x` returns
`NoChange` when the store already is `[x]` and otherwise restricts the
store to `[x]` with `BoundsChange`. -/
theorem set_value_mem {v : IntVarValues} (hs : SortedDom v) {x : Int}
    (hm : x ∈ v.domain) :
    set_value v x =
      if v.domain = [x] then (.ok .NoChange, v)
      else (.ok .BoundsChange, ⟨[x]⟩) := by
  have hr : ¬(v.umin > x ∨ v.umax < x) := by
    push_neg
    exact ⟨umin_le_of_mem hs hm, le_umax_of_mem hs hm⟩
  unfold set_value
  rw [if_neg hr]
  by_cases hd : v.domain = [x]
  · rw [if_pos ((value_eq_some_iff hs x).mpr hd), if_pos hd]
  · rw [if_neg (fun hv => hd ((value_eq_some_iff hs x).mp hv)),
      if_pos hm, if_neg hd]

/-- A failing bound operation hands the domain back unchanged
(`strict_upperbound` case). -/
theorem strict_upperbound_error_unchanged (v : IntVarValues) (b : Int)
    (h : (strict_upperbound v b).1 = .error .DomainWipeout) :
    (strict_upperbound v b).2 = v := by
  unfold strict_upperbound at h ⊢
  split_ifs at h ⊢ with h1 h2
  · rfl
  · cases hr : rposition (fun x => x < b) v.domain with
    | none => rfl
    | some i => rw [hr] at h; cases h

/-- A failing bound operation hands the domain back unchanged
(`weak_upperbound` case). -/
theorem weak_upperbound_error_unchanged (v : IntVarValues) (b : Int)
    (h : (weak_upperbound v b).1 = .error .DomainWipeout) :
    (weak_upperbound v b).2 = v := by
  unfold weak_upperbound at h ⊢
  split_ifs at h ⊢ with h1 h2
  · rfl
  · cases hr : rposition (fun x => x ≤ b) v.domain with
    | none => rfl
    | some i => rw [hr] at h; cases h

/-- A failing bound operation hands the domain back unchanged
(`strict_lowerbound` case). -/
theorem strict_lowerbound_error_unchanged (v : IntVarValues) (b : Int)
    (h : (strict_lowerbound v b).1 = .error .DomainWipeout) :
    (strict_lowerbound v b).2 = v := by
  unfold strict_lowerbound at h ⊢
  split_ifs at h ⊢ with h1 h2
  · rfl
  · cases hr : v.domain.findIdx? (fun x => x > b) with
    | none => rfl
    | some i => rw [hr] at h; cases h

/-- A failing bound operation hands the domain back unchanged
(`weak_lowerbound` case). -/
theorem weak_lowerbound_error_unchanged (v : IntVarValues) (b : Int)
    (h : (weak_lowerbound v b).1 = .error .DomainWipeout) :
    (weak_lowerbound v b).2 = v := by
  unfold weak_lowerbound at h ⊢
  split_ifs at h ⊢ with h1 h2
  · rfl
  · cases hr : v.domain.findIdx? (fun x => x ≥ b) with
    | none => rfl
    | some i => rw [hr] at h; cases h

/-- A range construction yields a sorted store. -/
theorem sorted_new_from_range {mn mx : Int} {v : IntVarValues}
    (h : new_from_range mn mx = some v) : SortedDom v := by
  unfold new_from_range at h
  split_ifs at h
  rw [Option.some_inj] at h
  subst h
  unfold SortedDom
  refine ( List.pairwise_map).mpr (List.Pairwise.imp ?_ (List.sorted_lt_range _))
  intro a b h
  omega

/-- A value-list construction yields a sorted store. -/
theorem sorted_new_from_values {vs : List Int} {v : IntVarValues}
    (h : new_from_values vs = some v) : SortedDom v := by
  simp only [new_from_values] at h
  split_ifs at h
  rw [Option.some_inj] at h
  subst h
  exact dedupAdj_sorted _ (List.sorted_insertionSort _ vs)

/-- `set_value` preserves sortedness of the store. -/
theorem sorted_after_set_value {v : IntVarValues} (hs : SortedDom v)
    (x : Int) : SortedDom (set_value v x).2 := by
  unfold SortedDom set_value
  split_ifs
  · exact hs
  · exact hs
  · simp
  · simp

/-- `strict_upperbound` preserves sortedness of the store. -/
theorem sorted_after_strict_ub {v : IntVarValues} (hs : SortedDom v)
    (b : Int) : SortedDom (strict_upperbound v b).2 := by
  unfold SortedDom strict_upperbound
  split_ifs
  · exact hs
  · exact hs
  · cases hr : rposition (fun x => x < b) v.domain with
    | none => exact hs
    | some i => exact hs.sublist (List.take_sublist _ _)

/-- `weak_upperbound` preserves sortedness of the store. -/
theorem sorted_after_weak_ub {v : IntVarValues} (hs : SortedDom v)
    (b : Int) : SortedDom (weak_upperbound v b).2 := by
  unfold SortedDom weak_upperbound
  split_ifs
  · exact hs
  · exact hs
  · cases hr : rposition (fun x => x ≤ b) v.domain with
    | none => exact hs
    | some i => exact hs.sublist (List.take_sublist _ _)

/-- `strict_lowerbound` preserves sortedness of the store. -/
theorem sorted_after_strict_lb {v : IntVarValues} (hs : SortedDom v)
    (b : Int) : SortedDom (strict_lowerbound v b).2 := by
  unfold SortedDom strict_lowerbound
  split_ifs
  · exact hs
  · exact hs
  · cases hr : v.domain.findIdx? (fun x => x > b) with
    | none => exact hs
    | some i => exact hs.sublist (List.drop_sublist _ _)

/-- `weak_lowerbound` preserves sortedness of the store. -/
theorem sorted_after_weak_lb {v : IntVarValues} (hs : SortedDom v)
    (b : Int) : SortedDom (weak_lowerbound v b).2 := by
  unfold SortedDom weak_lowerbound
  split_ifs
  · exact hs
  · exact hs
  · cases hr : v.domain.findIdx? (fun x => x ≥ b) with
    | none => exact hs
    | some i => exact hs.sublist (List.drop_sublist _ _)

/-- The left result of `equal` has a sorted store. -/
theorem sorted_after_equal_left (v w : IntVarValues) :
    SortedDom (equal v w).2.1 := by
  unfold SortedDom
  simp only [equal]
  split_ifs
  · simp
  · exact interList_sorted _ _

/-- The right result of `equal` has a sorted store. -/
theorem sorted_after_equal_right (v w : IntVarValues) :
    SortedDom (equal v w).2.2 := by
  unfold SortedDom
  simp only [equal]
  split_ifs
  · simp
  · exact interList_sorted _ _

/-- `remove_value` preserves sortedness of the store. -/
theorem sorted_after_remove_value {v : IntVarValues} (hs : SortedDom v)
    (x : Int) : SortedDom (remove_value v x).2 := by
  unfold SortedDom
  simp only [remove_value]
  split_ifs
  · exact hs
  · exact hs.sublist (List.erase_sublist _ _)
  · exact hs.sublist (List.erase_sublist _ _)
  · exact hs.sublist (List.erase_sublist _ _)
  · exact hs

/-- The left result of `not_equal` has a sorted store when the left input
is sorted. -/
theorem sorted_after_not_equal_left {v : IntVarValues} (w : IntVarValues)
    (hv : SortedDom v) : SortedDom (not_equal v w).2.1 := by
  unfold not_equal
  cases hv1 : v.value with
  | some val =>
    dsimp only
    rcases hrw : remove_value w val with ⟨r, w'⟩
    cases r with
    | ok s => exact hv
    | error e => exact hv
  | none =>
    dsimp only
    cases hv2 : w.value with
    | some val =>
      dsimp only
      have hsv := sorted_after_remove_value hv val
      rcases hrv : remove_value v val with ⟨r, v'⟩
      rw [hrv] at hsv
      cases r with
      | ok s => exact hsv
      | error e => exact hsv
    | none => exact hv

/-- The right result of `not_equal` has a sorted store when the right
input is sorted. -/
theorem sorted_after_not_equal_right (v : IntVarValues) {w : IntVarValues}
    (hw : SortedDom w) : SortedDom (not_equal v w).2.2 := by
  unfold not_equal
  cases hv1 : v.value with
  | some val =>
    dsimp only
    have hsw := sorted_after_remove_value hw val
    rcases hrw : remove_value w val with ⟨r, w'⟩
    rw [hrw] at hsw
    cases r with
    | ok s => exact hsw
    | error e => exact hsw
  | none =>
    dsimp only
    cases hv2 : w.value with
    | some val =>
      dsimp only
      rcases hrv : remove_value v val with ⟨r, v'⟩
      cases r with
      | ok s => exact hw
      | error e => exact hw
    | none => exact hw

/-- `domain_change` preserves sortedness of the store. -/
theorem sorted_after_domain_change {v : IntVarValues} (hs : SortedDom v)
    (pmn pmx : Int) (psz : Nat) :
    SortedDom (domain_change v pmn pmx psz).2 := by
  unfold SortedDom domain_change invalidate
  split_ifs
  · simp
  · exact hs
  · exact hs
  · exact hs

/-- `remove_if` yields a sorted store. -/
theorem sorted_after_remove_if {v : IntVarValues} (hs : SortedDom v)
    (p : Int → Bool) : SortedDom (remove_if v p).2 := by
  unfold remove_if
  exact sorted_after_domain_change (hs.sublist (List.filter_sublist _)) _ _ _

/-- `retains_if` yields a sorted store. -/
theorem sorted_after_retains_if {v : IntVarValues} (hs : SortedDom v)
    (p : Int → Bool) : SortedDom (retains_if v p).2 := by
  unfold retains_if
  exact sorted_after_domain_change (hs.sublist (List.filter_sublist _)) _ _ _

/-- `in_sorted_values` yields a sorted store. -/
theorem sorted_after_in_sorted (v : IntVarValues) (vs : List Int) :
    SortedDom (in_sorted_values v vs).2 := by
  unfold SortedDom
  simp only [in_sorted_values]
  split_ifs
  · simp
  · exact interList_sorted _ _

/-- `in_values` yields a sorted store. -/
theorem sorted_after_in_values (v : IntVarValues) (vs : List Int) :
    SortedDom (in_values v vs).2 := by
  unfold in_values
  exact sorted_after_in_sorted v _

/-- Every reachable domain state has a sorted store. -/
theorem reachable_sorted : ∀ {v : IntVarValues}, Reachable v → SortedDom v := by
  intro v h
  induction h with
  | from_range mn mx v h => exact sorted_new_from_range h
  | from_values vs v h => exact sorted_new_from_values h
  | step_set_value v x _ ih => exact sorted_after_set_value ih x
  | step_strict_ub v b _ ih => exact sorted_after_strict_ub ih b
  | step_weak_ub v b _ ih => exact sorted_after_weak_ub ih b
  | step_strict_lb v b _ ih => exact sorted_after_strict_lb ih b
  | step_weak_lb v b _ ih => exact sorted_after_weak_lb ih b
  | step_equal_left v w _ _ _ _ => exact sorted_after_equal_left v w
  | step_equal_right v w _ _ _ _ => exact sorted_after_equal_right v w
  | step_not_equal_left v w _ _ ihv _ => exact sorted_after_not_equal_left w ihv
  | step_not_equal_right v w _ _ _ ihw => exact sorted_after_not_equal_right v ihw
  | step_in_values v vs _ _ => exact sorted_after_in_values v vs
  | step_in_sorted v vs _ _ => exact sorted_after_in_sorted v vs
  | step_remove_value v x _ ih => exact sorted_after_remove_value ih x
  | step_remove_if v p _ ih => exact sorted_after_remove_if ih p
  | step_retains_if v p _ ih => exact sorted_after_retains_if ih p

/-- A sorted store satisfies the full documented invariant. -/
theorem dominv_of_sorted {v : IntVarValues} (hs : SortedDom v) :
    DomInvariant v := by
  refine ⟨hs, hs.nodup, rfl, ?_⟩
  intro h
  constructor
  · show v.domain.head? = _
    exact List.head?_eq_head h
  · show v.domain.getLast? = _
    exact List.getLast?_eq_getLast v.domain h

/-- A failing `domain_change` leaves the cleared store. -/
theorem domain_change_error_cleared (v : IntVarValues) (pmn pmx : Int)
    (psz : Nat) (h : (domain_change v pmn pmx psz).1 = .error .DomainWipeout) :
    (domain_change v pmn pmx psz).2 = ⟨[]⟩ := by
  unfold domain_change invalidate at h ⊢
  split_ifs at h ⊢
  rfl

/-- A failing `equal` clears both stores. -/
theorem equal_error_cleared (v w : IntVarValues)
    (h : (equal v w).1 = .error .DomainWipeout) :
    (equal v w).2 = (⟨[]⟩, ⟨[]⟩) := by
  simp only [equal] at h ⊢
  split_ifs at h ⊢
  rfl

/-- A failing `in_sorted_values` leaves the cleared store. -/
theorem in_sorted_error_cleared (v : IntVarValues) (vs : List Int)
    (h : (in_sorted_values v vs).1 = .error .DomainWipeout) :
    (in_sorted_values v vs).2 = ⟨[]⟩ := by
  simp only [in_sorted_values] at h ⊢
  split_ifs at h ⊢
  rfl

/-- A failing `remove_value` leaves the store emptied by the removal. -/
theorem remove_value_error_cleared (v : IntVarValues) (x : Int)
    (h : (remove_value v x).1 = .error .DomainWipeout) :
    (remove_value v x).2 = ⟨[]⟩ := by
  simp only [remove_value] at h ⊢
  split_ifs at h ⊢ with h1 h2 h3
  have : v.domain.erase x = [] := List.length_eq_zero.mp h3
  rw [this]

end IntVarValues


/-- C1: the code's `is_subsumed_under` contradicts the claimed subsumption
order (and the impl's own doc comment): `MinBoundChange` and
`MaxBoundChange` are NOT subsumed under `BoundsChange`, `BoundsChange` is
NOT subsumed under `ValuesChange`, `ValuesChange` is NOT subsumed under
`NoChange`, while concrete classifications ARE subsumed under the
`Universal` values.  This theorem evaluates the code at those inputs. -/
theorem c1_subsumption_code_eval :
    is_subsumed_under .MinBoundChange .BoundsChange = false
    ∧ is_subsumed_under .MaxBoundChange .BoundsChange = false
    ∧ is_subsumed_under .BoundsChange .ValuesChange = false
    ∧ is_subsumed_under .ValuesChange .NoChange = false
    ∧ is_subsumed_under .ValuesChange .UniversalChange = true
    ∧ is_subsumed_under .BoundsChange .UniversalError = true := by
  decide

/-- C2: the merge operator is commutative, `NoChange` is an identity,
opposite-direction bound changes merge to `BoundsChange`, any bound change
merged with `ValuesChange` gives `ValuesChange`, and `UniversalChange`
merged with anything but `NoChange` or `UniversalChange` gives
`UniversalError`. -/
theorem c2_merge_algebra :
    (∀ a b : IntVariableState, bitor a b = bitor b a)
    ∧ (∀ a : IntVariableState, bitor .NoChange a = a)
    ∧ bitor .MinBoundChange .MaxBoundChange = .BoundsChange
    ∧ (∀ a : IntVariableState,
        a = .MinBoundChange ∨ a = .MaxBoundChange ∨ a = .BoundsChange →
          bitor a .ValuesChange = .ValuesChange)
    ∧ (∀ a : IntVariableState, a ≠ .NoChange → a ≠ .UniversalChange →
        bitor .UniversalChange a = .UniversalError) := by
  refine ⟨by decide, by decide, by decide, by decide, by decide⟩

/-- Witness for C2 at concrete inputs. -/
theorem c2_merge_algebra_witness :
    bitor .MinBoundChange .ValuesChange = .ValuesChange
    ∧ bitor .UniversalChange .ValuesChange = .UniversalError := by
  exact ⟨c2_merge_algebra.2.2.2.1 .MinBoundChange (Or.inl rfl),
    c2_merge_algebra.2.2.2.2 .ValuesChange (by decide) (by decide)⟩

/-- C10: closure of the bit-level merge: for every pair of valid
discriminants the `u8` computed inside the `BitOr` impl is itself a valid
discriminant, so the final transmute always yields a valid enum value and
the merge is total. -/
theorem c10_bitor_closure :
    ∀ a b : IntVariableState, ∃ c : IntVariableState,
      bitorRepr (toU8 a) (toU8 b) = toU8 c := by
  decide

open IntVarValues

/-- C3 counterexample: `set_value` on domain `[1,2,3]` with the
out-of-range value `10` returns `DomainWipeout` yet leaves the domain
holding its pre-call values, so the representation is not cleared at every
point of detection; `strict_upperbound` behaves the same in its wipeout
case. -/
theorem c3_counterexample :
    set_value ⟨[(1:Int), 2, 3]⟩ 10 = (.error .DomainWipeout, ⟨[1, 2, 3]⟩)
    ∧ strict_upperbound ⟨[(1:Int), 2, 3]⟩ 1 =
        (.error .DomainWipeout, ⟨[1, 2, 3]⟩)
    ∧ ([(1:Int), 2, 3] : List Int) ≠ [] := by
  decide

/-- C3 (amended): wipeouts detected after the search or intersection clear
the store (`set_value` on an in-range but absent value, `equal`,
`in_sorted_values`/`in_values`, `remove_if`/`retains_if`, and
`remove_value`, which leaves the emptied store), while `set_value`'s
initial range check and the four bound operations detect the wipeout
before mutating and return the error with the domain unchanged. -/
theorem c3_wipeout_reset :
    (∀ (v : IntVarValues) (x : Int), (v.umin > x ∨ v.umax < x) →
        set_value v x = (.error .DomainWipeout, v))
    ∧ (∀ (v : IntVarValues) (x : Int), ¬(v.umin > x ∨ v.umax < x) →
        x ∉ v.domain → set_value v x = (.error .DomainWipeout, ⟨[]⟩))
    ∧ (∀ (v : IntVarValues) (b : Int),
        (strict_upperbound v b).1 = .error .DomainWipeout →
          (strict_upperbound v b).2 = v)
    ∧ (∀ (v : IntVarValues) (b : Int),
        (weak_upperbound v b).1 = .error .DomainWipeout →
          (weak_upperbound v b).2 = v)
    ∧ (∀ (v : IntVarValues) (b : Int),
        (strict_lowerbound v b).1 = .error .DomainWipeout →
          (strict_lowerbound v b).2 = v)
    ∧ (∀ (v : IntVarValues) (b : Int),
        (weak_lowerbound v b).1 = .error .DomainWipeout →
          (weak_lowerbound v b).2 = v)
    ∧ (∀ (v w : IntVarValues), (equal v w).1 = .error .DomainWipeout →
        (equal v w).2 = (⟨[]⟩, ⟨[]⟩))
    ∧ (∀ (v : IntVarValues) (x : Int),
        (remove_value v x).1 = .error .DomainWipeout →
          (remove_value v x).2 = ⟨[]⟩)
    ∧ (∀ (v : IntVarValues) (vs : List Int),
        (in_sorted_values v vs).1 = .error .DomainWipeout →
          (in_sorted_values v vs).2 = ⟨[]⟩)
    ∧ (∀ (v : IntVarValues) (vs : List Int),
        (in_values v vs).1 = .error .DomainWipeout →
          (in_values v vs).2 = ⟨[]⟩)
    ∧ (∀ (v : IntVarValues) (p : Int → Bool),
        (remove_if v p).1 = .error .DomainWipeout →
          (remove_if v p).2 = ⟨[]⟩)
    ∧ (∀ (v : IntVarValues) (p : Int → Bool),
        (retains_if v p).1 = .error .DomainWipeout →
          (retains_if v p).2 = ⟨[]⟩) := by
  refine ⟨?_, ?_, strict_upperbound_error_unchanged,
    weak_upperbound_error_unchanged, strict_lowerbound_error_unchanged,
    weak_lowerbound_error_unchanged, equal_error_cleared,
    remove_value_error_cleared, in_sorted_error_cleared, ?_, ?_, ?_⟩
  · intro v x h
    unfold set_value
    rw [if_pos h]
  · intro v x h1 h2
    unfold set_value
    rw [if_neg h1,
      if_neg (fun hv => h2 (mem_of_value_eq_some hv)), if_neg h2]
  · intro v vs h
    unfold in_values at h ⊢
    exact in_sorted_error_cleared v _ h
  · intro v p h
    unfold remove_if at h ⊢
    exact domain_change_error_cleared _ _ _ _ h
  · intro v p h
    unfold retains_if at h ⊢
    exact domain_change_error_cleared _ _ _ _ h

/-- C3 witness: the range-check wipeout of `set_value` at a concrete
input, with the domain handed back unchanged. -/
theorem c3_wipeout_reset_witness :
    set_value ⟨[(1:Int), 2, 3]⟩ 10 = (.error .DomainWipeout, ⟨[1, 2, 3]⟩) :=
  c3_wipeout_reset.1 ⟨[(1:Int), 2, 3]⟩ 10 (by decide)

/-- C4 counterexample: on domain `1..10`, `strict_upperbound 5` returns
the generic `BoundsChange`, not the side-specific `MaxBoundChange` the
claim describes for the max-bound side. -/
theorem c4_counterexample :
    strict_upperbound ⟨[(1:Int), 2, 3, 4, 5, 6, 7, 8, 9, 10]⟩ 5 =
      (.ok .BoundsChange, ⟨[1, 2, 3, 4]⟩)
    ∧ (Except.ok IntVariableState.BoundsChange : VRes) ≠
        .ok .MaxBoundChange := by
  decide

/-- C4 (amended): on a sorted non-empty domain, `strict_upperbound ub`
returns `NoChange` when the max is already below `ub`, fails with
`DomainWipeout` when the min is at least `ub`, and otherwise removes
exactly the values that are at least `ub` and returns the generic
`BoundsChange` classification. -/
theorem c4_strict_upperbound (v : IntVarValues) (ub : Int)
    (hs : SortedDom v) (hne : v.domain ≠ []) :
    (v.umax < ub → strict_upperbound v ub = (.ok .NoChange, v))
    ∧ (v.umin ≥ ub → strict_upperbound v ub = (.error .DomainWipeout, v))
    ∧ (¬v.umax < ub → ¬v.umin ≥ ub →
        strict_upperbound v ub =
          (.ok .BoundsChange, ⟨v.domain.filter (fun x => x < ub)⟩)
        ∧ ∀ x : Int,
            x ∈ (strict_upperbound v ub).2.domain ↔ x ∈ v.domain ∧ x < ub) := by
  refine ⟨?_, ?_, ?_⟩
  · intro h
    unfold strict_upperbound
    rw [if_pos h]
  · intro h
    have hle := umin_le_umax hs hne
    unfold strict_upperbound
    rw [if_neg (by omega), if_pos h]
  · intro h1 h2
    have hcut := strict_upperbound_cut hs hne h1 h2
    refine ⟨hcut, ?_⟩
    intro x
    rw [hcut]
    simp [List.mem_filter]

/-- C4 witness: the claimed scenario, domain `1..10` cut at `5`. -/
theorem c4_strict_upperbound_witness :
    strict_upperbound ⟨[(1:Int), 2, 3, 4, 5, 6, 7, 8, 9, 10]⟩ 5 =
      (.ok .BoundsChange, ⟨[1, 2, 3, 4]⟩) := by
  have h := (c4_strict_upperbound ⟨[(1:Int), 2, 3, 4, 5, 6, 7, 8, 9, 10]⟩ 5
    (by decide) (by decide)).2.2 (by decide) (by decide)
  rw [h.1]
  decide

/-- C5: every domain state reachable from a construction through the
mutating operations keeps a strictly ascending, duplicate-free store with
`size` equal to its length and `min`/`max` equal to its endpoints. -/
theorem c5_reachable_invariant (v : IntVarValues) (h : Reachable v) :
    DomInvariant v :=
  dominv_of_sorted (reachable_sorted h)

/-- C5 witness: the invariant at the concrete reachable state built from
the range `1..3`. -/
theorem c5_reachable_invariant_witness : DomInvariant ⟨[(1:Int), 2, 3]⟩ :=
  c5_reachable_invariant ⟨[(1:Int), 2, 3]⟩
    (Reachable.from_range 1 3 ⟨[(1:Int), 2, 3]⟩ (by decide))

/-- C6: on a sorted non-empty domain, `set_value` fails with
`DomainWipeout` exactly when the value is absent, returns `NoChange` when
the domain is already that singleton, otherwise restricts the domain to
the singleton with `BoundsChange`; a second identical call yields
`NoChange`. -/
theorem c6_set_value (v : IntVarValues) (val : Int) (hs : SortedDom v)
    (hne : v.domain ≠ []) :
    ((set_value v val).1 = .error .DomainWipeout ↔ val ∉ v.domain)
    ∧ (v.domain = [val] → set_value v val = (.ok .NoChange, v))
    ∧ (val ∈ v.domain → v.domain ≠ [val] →
        set_value v val = (.ok .BoundsChange, ⟨[val]⟩))
    ∧ (val ∈ v.domain →
        (set_value (set_value v val).2 val).1 = .ok .NoChange) := by
  refine ⟨⟨?_, ?_⟩, ?_, ?_, ?_⟩
  · intro herr hm
    rw [set_value_mem hs hm] at herr
    by_cases hd : v.domain = [val]
    · rw [if_pos hd] at herr
      cases herr
    · rw [if_neg hd] at herr
      cases herr
  · intro hm
    unfold set_value
    by_cases h1 : v.umin > val ∨ v.umax < val
    · rw [if_pos h1]
    · rw [if_neg h1, if_neg (fun hv => hm (mem_of_value_eq_some hv)),
        if_neg hm]
  · intro hd
    have hm : val ∈ v.domain := by
      rw [hd]
      exact List.mem_cons_self val []
    rw [set_value_mem hs hm, if_pos hd]
  · intro hm hd
    rw [set_value_mem hs hm, if_neg hd]
  · intro hm
    rw [set_value_mem hs hm]
    by_cases hd : v.domain = [val]
    · rw [if_pos hd]
      rw [set_value_mem hs hm, if_pos hd]
    · rw [if_neg hd]
      have hs2 : SortedDom (⟨[val]⟩ : IntVarValues) := by
        simp [SortedDom]
      have hm2 : val ∈ (⟨[val]⟩ : IntVarValues).domain :=
        List.mem_cons_self val []
      rw [set_value_mem hs2 hm2, if_pos rfl]

/-- C6 witness: assigning `3` on domain `[1,3,5]` and the idempotent
second call. -/
theorem c6_set_value_witness :
    set_value ⟨[(1:Int), 3, 5]⟩ 3 = (.ok .BoundsChange, ⟨[3]⟩)
    ∧ (set_value (set_value ⟨[(1:Int), 3, 5]⟩ 3).2 3).1 = .ok .NoChange := by
  have h := c6_set_value ⟨[(1:Int), 3, 5]⟩ 3 (by decide) (by decide)
  exact ⟨h.2.2.1 (by decide) (by decide), h.2.2.2 (by decide)⟩

/-- C7: `equal` replaces both stores by their set intersection, fails on
both sides exactly when that intersection is empty, and otherwise returns
the per-side classification computed against each side's pre-operation
size and bounds; on `A = [1,2,3]`, `B = [2,3,4]` both become `[2,3]` with
`BoundsChange` on each side. -/
theorem c7_equal (v1 v2 : IntVarValues) :
    (∀ x : Int,
      x ∈ interList v1.domain v2.domain ↔ x ∈ v1.domain ∧ x ∈ v2.domain)
    ∧ ((equal v1 v2).1 = .error .DomainWipeout ↔
        ∀ x : Int, ¬(x ∈ v1.domain ∧ x ∈ v2.domain))
    ∧ ((∀ x : Int, ¬(x ∈ v1.domain ∧ x ∈ v2.domain)) →
        equal v1 v2 = (.error .DomainWipeout, ⟨[]⟩, ⟨[]⟩))
    ∧ (interList v1.domain v2.domain ≠ [] →
        equal v1 v2 =
          (.ok (equalCheck v1 (interList v1.domain v2.domain),
                equalCheck v2 (interList v1.domain v2.domain)),
            ⟨interList v1.domain v2.domain⟩,
            ⟨interList v1.domain v2.domain⟩))
    ∧ equal ⟨[(1:Int), 2, 3]⟩ ⟨[(2:Int), 3, 4]⟩ =
        (.ok (.BoundsChange, .BoundsChange), ⟨[2, 3]⟩, ⟨[2, 3]⟩) := by
  have hiff := interList_eq_nil_iff v1.domain v2.domain
  refine ⟨interList_mem v1.domain v2.domain, ?_, ?_, ?_, by decide⟩
  · simp only [equal]
    by_cases hemp : (interList v1.domain v2.domain).isEmpty = true
    · rw [if_pos hemp]
      constructor
      · intro _
        exact hiff.mp (List.isEmpty_iff.mp hemp)
      · intro _
        rfl
    · rw [if_neg hemp]
      constructor
      · intro h
        cases h
      · intro hall
        exact absurd (List.isEmpty_iff.mpr (hiff.mpr hall)) hemp
  · intro hall
    simp only [equal]
    rw [if_pos (List.isEmpty_iff.mpr (hiff.mpr hall))]
  · intro hne
    simp only [equal]
    rw [if_neg (fun hemp => hne (List.isEmpty_iff.mp hemp))]

/-- C7 witness: the claimed scenario applied through the success case. -/
theorem c7_equal_witness :
    equal ⟨[(1:Int), 2, 3]⟩ ⟨[(2:Int), 3, 4]⟩ =
      (.ok (equalCheck ⟨[(1:Int), 2, 3]⟩ (interList [1, 2, 3] [2, 3, 4]),
            equalCheck ⟨[(2:Int), 3, 4]⟩ (interList [1, 2, 3] [2, 3, 4])),
        ⟨interList [1, 2, 3] [2, 3, 4]⟩, ⟨interList [1, 2, 3] [2, 3, 4]⟩) :=
  (c7_equal ⟨[(1:Int), 2, 3]⟩ ⟨[(2:Int), 3, 4]⟩).2.2.2.1 (by decide)

/-- C8: on a sorted non-empty domain, `remove_value` returns `NoChange`
leaving the domain unchanged when the value is absent; when present it
deletes exactly that value, failing with `DomainWipeout` (store emptied)
when this empties the domain, reporting `BoundsChange` when an endpoint
moved and `ValuesChange` otherwise; `remove_value 5` on `[5]` wipes out
and `remove_value 10` on `[1,2,3]` is `NoChange`. -/
theorem c8_remove_value (v : IntVarValues) (val : Int) (hs : SortedDom v)
    (hne : v.domain ≠ []) :
    (val ∉ v.domain → remove_value v val = (.ok .NoChange, v))
    ∧ (val ∈ v.domain → ∀ x : Int,
        x ∈ v.domain.erase val ↔ x ∈ v.domain ∧ x ≠ val)
    ∧ (val ∈ v.domain → v.domain.erase val = [] →
        remove_value v val = (.error .DomainWipeout, ⟨[]⟩))
    ∧ (val ∈ v.domain → v.domain.erase val ≠ [] →
        ((⟨v.domain.erase val⟩ : IntVarValues).min ≠ v.min
          ∨ (⟨v.domain.erase val⟩ : IntVarValues).max ≠ v.max) →
        remove_value v val = (.ok .BoundsChange, ⟨v.domain.erase val⟩))
    ∧ (val ∈ v.domain → v.domain.erase val ≠ [] →
        ¬((⟨v.domain.erase val⟩ : IntVarValues).min ≠ v.min
          ∨ (⟨v.domain.erase val⟩ : IntVarValues).max ≠ v.max) →
        remove_value v val = (.ok .ValuesChange, ⟨v.domain.erase val⟩))
    ∧ remove_value ⟨[(5:Int)]⟩ 5 = (.error .DomainWipeout, ⟨[]⟩)
    ∧ remove_value ⟨[(1:Int), 2, 3]⟩ 10 = (.ok .NoChange, ⟨[1, 2, 3]⟩) := by
  have hg : ∀ _hm : val ∈ v.domain, ¬(v.umin > val ∧ v.umax < val) :=
    fun hm hc => absurd (umin_le_of_mem hs hm) (not_le.mpr hc.1)
  refine ⟨?_, ?_, ?_, ?_, ?_, by decide, by decide⟩
  · intro hm
    simp only [remove_value]
    by_cases h1 : v.umin > val ∧ v.umax < val
    · rw [if_pos h1]
    · rw [if_neg h1, if_neg hm]
  · intro _hm x
    rw [List.Nodup.mem_erase_iff hs.nodup]
    tauto
  · intro hm hemp
    simp only [remove_value]
    rw [if_neg (hg hm), if_pos hm,
      if_pos (show (⟨v.domain.erase val⟩ : IntVarValues).size = 0 by
        simp [size, hemp]), hemp]
  · intro hm hne2 hmv
    simp only [remove_value]
    rw [if_neg (hg hm), if_pos hm,
      if_neg (show ¬(⟨v.domain.erase val⟩ : IntVarValues).size = 0 by
        simp [size, hne2]), if_pos hmv]
  · intro hm hne2 hmv
    simp only [remove_value]
    rw [if_neg (hg hm), if_pos hm,
      if_neg (show ¬(⟨v.domain.erase val⟩ : IntVarValues).size = 0 by
        simp [size, hne2]), if_neg hmv]

/-- C8 witness: deleting the interior value `2` from `[1,2,3]` reports
`ValuesChange`. -/
theorem c8_remove_value_witness :
    remove_value ⟨[(1:Int), 2, 3]⟩ 2 = (.ok .ValuesChange, ⟨[1, 3]⟩) := by
  have h := (c8_remove_value ⟨[(1:Int), 2, 3]⟩ 2 (by decide)
    (by decide)).2.2.2.2.1 (by decide) (by decide) (by decide)
  rw [h]
  decide

/-- C9: constructing from the values `[3,1,2,2]` equals constructing from
the range `(1,3)`; a range construction yields the closed interval and
nothing exactly when `min > max`; a value construction yields the sorted
deduplicated input and nothing exactly on empty input. -/
theorem c9_construction :
    new_from_values [3, 1, 2, 2] = new_from_range 1 3
    ∧ (∀ mn mx : Int, new_from_range mn mx = none ↔ mn > mx)
    ∧ (∀ mn mx : Int, ∀ d : IntVarValues, new_from_range mn mx = some d →
        ∀ x : Int, x ∈ d.domain ↔ mn ≤ x ∧ x ≤ mx)
    ∧ (∀ vs : List Int, new_from_values vs = none ↔ vs = [])
    ∧ (∀ vs : List Int, ∀ d : IntVarValues, new_from_values vs = some d →
        d.domain.Sorted (· < ·) ∧ d.domain.Nodup ∧
          ∀ x : Int, x ∈ d.domain ↔ x ∈ vs) := by
  refine ⟨by decide, ?_, ?_, ?_, ?_⟩
  · intro mn mx
    unfold new_from_range
    split_ifs with h
    · simp [h]
    · simp [h]
  · intro mn mx d h x
    unfold new_from_range at h
    split_ifs at h with hgt
    rw [Option.some_inj] at h
    subst h
    simp only [List.mem_map, List.mem_range]
    constructor
    · rintro ⟨i, hi, rfl⟩
      omega
    · rintro ⟨ha, hb⟩
      exact ⟨(x - mn).toNat, by omega, by omega⟩
  · intro vs
    simp only [new_from_values]
    split_ifs with hemp
    · have h1 : dedupAdj (List.insertionSort (· ≤ ·) vs) = [] :=
        List.isEmpty_iff.mp hemp
      have h2 : List.insertionSort (· ≤ ·) vs = [] :=
        (dedupAdj_eq_nil_iff _).mp h1
      have h3 := (List.perm_insertionSort (· ≤ ·) vs).symm
      rw [h2] at h3
      simp [h3.eq_nil]
    · constructor
      · intro h
        cases h
      · intro h
        subst h
        exact absurd rfl hemp
  · intro vs d h
    simp only [new_from_values] at h
    split_ifs at h with hemp
    rw [Option.some_inj] at h
    subst h
    refine ⟨dedupAdj_sorted _ (List.sorted_insertionSort _ vs),
      (dedupAdj_sorted _ (List.sorted_insertionSort _ vs)).nodup, ?_⟩
    intro x
    exact (dedupAdj_mem _ x).trans (List.perm_insertionSort _ vs).mem_iff

/-- C9 witness: membership in the concrete range construction `1..3`. -/
theorem c9_construction_witness :
    (2:Int) ∈ (IntVarValues.mk [1, 2, 3]).domain ↔ (1:Int) ≤ 2 ∧ (2:Int) ≤ 3 :=
  c9_construction.2.2.1 1 3 ⟨[1, 2, 3]⟩ (by decide) 2

end Crusp
